import Mathlib

/-!
Verification of the vector-store core of this repository.

The main subject is `src/utils/vector_db.py` (class `VectorDB`, a wrapper
around a flat L2 similarity index with parallel `texts` / `metadata` /
`embeddings` lists and pickle-based persistence) together with
`src/utils/text_processor.py` (`chunk_text`).

Modelling conventions:
* Python floats are modelled by an exact linearly ordered integral
  domain (`ℤ`); the store never divides, so squared-L2 arithmetic and
  its ordering carry over verbatim, matching the float behaviour the
  specification relies on (notably, the squared distance of a vector to
  itself is exactly 0 in both models).
* The third-party similarity index (`faiss.IndexFlatL2`) is modelled from
  its interface contract as used by the repository: `add` appends vectors
  after asserting that every row has the index's dimension (the combined
  effect of the `numpy` conversion and the faiss wrapper's dimension
  assertion), and `search` returns the `k` nearest stored vectors by
  squared Euclidean distance, ascending, ties broken by lower insertion
  position, as an exact exhaustive scan.
* Python exceptions are modelled with `Except`: a raising call returns
  `.error`, and since all mutations of `self` in the source happen only
  after the last possible raise point of each method, an `.error` result
  leaves the store unchanged (captured by `applyOp`, which keeps the
  pre-call state on error, exactly as a caught Python exception would).
* The filesystem is modelled as an explicit `Disk` value holding the two
  snapshot artifacts (`<path>.index` and `<path>.pkl`); a file is either
  absent, readable (`good`), or raises on read (`corrupt`).
-/

/-- Scalar values of embeddings: Python floats, modelled exactly. -/
abbrev Scalar := ℤ

/-- An embedding vector: `List[float]` in the source. -/
abbrev Vec := List Scalar

/-- Squared Euclidean (L2) distance, the metric of `faiss.IndexFlatL2`
(`vector_db.py` line 27: "L2 distance for similarity"; no square root). -/
def sqL2 (q v : Vec) : Scalar :=
  (List.zipWith (fun a b => (a - b) * (a - b)) q v).sum

/-- The flat L2 index: a dimension and the stored vectors in insertion
order (`faiss.IndexFlatL2`). -/
structure IndexFlatL2 where
  d : Nat
  vecs : List Vec
deriving Repr, DecidableEq

/-- `faiss.IndexFlatL2(dimension)`: a fresh empty index. -/
def IndexFlatL2.init (d : Nat) : IndexFlatL2 := ⟨d, []⟩

/-- `index.ntotal`: number of stored vectors. -/
def IndexFlatL2.ntotal (ix : IndexFlatL2) : Nat := ix.vecs.length

/-- `index.add(xs)`: appends rows to the index.  Raises unless every row
has exactly the index's dimension — the combined effect of
`np.array(...).astype('float32')` (raises on ragged input) and the faiss
wrapper's `assert d == self.d`. -/
def IndexFlatL2.add (ix : IndexFlatL2) (xs : List Vec) : Except String IndexFlatL2 :=
  if xs.all (fun v => v.length = ix.d) then
    .ok ⟨ix.d, ix.vecs ++ xs⟩
  else
    .error "dimension mismatch"

/-- Ranking order of the similarity index's results: ascending squared
distance, ties broken by lower insertion position (spec section 4.1: "ties
broken by insertion order (lower position first) since the underlying scan
is stable"). -/
def hitLE (a b : Scalar × Nat) : Prop :=
  a.1 < b.1 ∨ (a.1 = b.1 ∧ a.2 ≤ b.2)

instance : DecidableRel hitLE := fun a b => by
  unfold hitLE; infer_instance

instance : IsTotal (Scalar × Nat) hitLE := by
  constructor
  intro a b
  rcases lt_trichotomy a.1 b.1 with h | h | h
  · exact Or.inl (Or.inl h)
  · rcases Nat.le_total a.2 b.2 with h2 | h2
    · exact Or.inl (Or.inr ⟨h, h2⟩)
    · exact Or.inr (Or.inr ⟨h.symm, h2⟩)
  · exact Or.inr (Or.inl h)

instance : IsTrans (Scalar × Nat) hitLE := by
  constructor
  intro a b c hab hbc
  rcases hab with h1 | ⟨h1, h1'⟩
  · rcases hbc with h2 | ⟨h2, _⟩
    · exact Or.inl (h1.trans h2)
    · exact Or.inl (h2 ▸ h1)
  · rcases hbc with h2 | ⟨h2, h2'⟩
    · exact Or.inl (h1 ▸ h2)
    · exact Or.inr ⟨h1.trans h2, h1'.trans h2'⟩

/-- `index.search(query, k)`: the flat index scores every stored vector by
squared L2 distance against the query and returns the `k` best
`(distance, position)` pairs, ascending, ties by lower position.  The
wrapper asserts the query's length equals the index dimension before
scanning. -/
def IndexFlatL2.search (ix : IndexFlatL2) (q : Vec) (k : Nat) :
    Except String (List (Scalar × Nat)) :=
  if q.length = ix.d then
    .ok (((ix.vecs.enum.map (fun p => (sqL2 q p.2, p.1))).insertionSort hitLE).take k)
  else
    .error "query dimension mismatch"

/-- One metadata mapping (`dict` in the source).  The store only ever
consults the `"filename"` key (deletion, file listing) and `"chunk_index"`
(file info); other keys are treated as an opaque payload, so the model
keeps exactly the consulted fields.  `none` models an absent key
(`dict.get` returning `None`). -/
structure Metadata where
  filename : Option String
  chunk_index : Option Nat
deriving Repr, DecidableEq

/-- `{}`: the empty metadata dict. -/
def Metadata.empty : Metadata := ⟨none, none⟩

/-- The pickled snapshot written by `VectorDB.save` (lines 109-116):
texts, metadata, embeddings and the dimension.  Loading uses
`data.get(key, default)`, so a legacy snapshot may lack the
`embeddings` list (default `[]`) or the `dimension` (default: keep the
constructor's); `Option` models the possibly-absent `dimension`. -/
structure SavedData where
  texts : List String
  metadata : List Metadata
  embeddings : List (Option Vec)
  dimension : Option Nat
deriving Repr, DecidableEq

/-- A file on disk: readable content, or content whose read raises. -/
inductive FileData (α : Type) where
  | good (a : α)
  | corrupt
deriving Repr, DecidableEq

/-- The two co-located persistence artifacts keyed by `index_path`:
the native index serialization (`.index`) and the pickle (`.pkl`).
`none` means the file does not exist. -/
structure Disk where
  indexFile : Option (FileData IndexFlatL2)
  pklFile : Option (FileData SavedData)
deriving Repr, DecidableEq

/-- Errors raised by store operations: `ValueError` (mismatched input
lengths), the dimension assertion raised inside the index library, and
`IndexError` (out-of-range list access). -/
inductive DBError where
  | valueError
  | dimensionMismatch
  | indexError
deriving Repr, DecidableEq

/-- The in-memory state of `VectorDB` (lines 25-30): configured dimension,
the similarity index, and the three parallel record lists.  `embeddings`
entries are `Option` because legacy snapshots yield `None` placeholders
(line 139). -/
structure VectorDB where
  dimension : Nat
  index : IndexFlatL2
  texts : List String
  metadata : List Metadata
  embeddings : List (Option Vec)
deriving Repr, DecidableEq

/-- `VectorDB.size` (lines 280-282): the index element count. -/
def VectorDB.size (db : VectorDB) : Nat := db.index.ntotal

/-- `VectorDB.save` (lines 100-116): writes the index to `<path>.index`
and the pickled snapshot to `<path>.pkl`, overwriting both. -/
def VectorDB.save (db : VectorDB) (_disk : Disk) : Disk :=
  { indexFile := some (.good db.index),
    pklFile := some (.good ⟨db.texts, db.metadata, db.embeddings, some db.dimension⟩) }

/-- The reset performed by the `except` branch of `VectorDB.load`
(lines 140-146): empty index with the configured dimension, empty lists. -/
def VectorDB.resetEmpty (db : VectorDB) : VectorDB :=
  { db with index := IndexFlatL2.init db.dimension, texts := [], metadata := [], embeddings := [] }

/-- `VectorDB.load` (lines 118-146).  If both files exist it reads the
index, then the pickle; any raise (a corrupt file) is caught and the store
is reset to empty with the configured dimension — never propagated.  On
success it installs the snapshot, substituting `None` placeholders when a
legacy snapshot has texts but no embeddings (lines 138-139). -/
def VectorDB.load (db : VectorDB) (disk : Disk) : VectorDB :=
  match disk.indexFile, disk.pklFile with
  | some fIx, some fPkl =>
    match fIx with
    | .corrupt => db.resetEmpty
    | .good ix =>
      match fPkl with
      | .corrupt => db.resetEmpty
      | .good data =>
        let embeddings :=
          if data.embeddings.isEmpty ∧ ¬ data.texts.isEmpty then
            List.replicate data.texts.length (none : Option Vec)
          else data.embeddings
        { dimension := data.dimension.getD db.dimension
          index := ix
          texts := data.texts
          metadata := data.metadata
          embeddings := embeddings }
  | _, _ => db

/-- The constructor `VectorDB.__init__` (lines 17-33): initialize empty
with the given dimension, then attempt to load prior state. -/
def VectorDB.init (dimension : Nat) (disk : Disk) : VectorDB :=
  VectorDB.load ⟨dimension, IndexFlatL2.init dimension, [], [], []⟩ disk

/-- `VectorDB.add_documents` (lines 35-67).  Early no-op return when
`embeddings` or `texts` is empty (no save); `ValueError` when their
lengths differ; the index `add` raises on any wrong-length row (before any
mutation of the store); otherwise all three lists are extended in
lock-step — an absent or empty metadata argument (`if metadata:` is falsy
for both `None` and `[]`) is replaced by `[{}] * len(texts)` — and the
result is saved. -/
def VectorDB.add_documents (db : VectorDB) (disk : Disk)
    (embeddings : List Vec) (texts : List String)
    (metadata : Option (List Metadata)) :
    Except DBError (VectorDB × Disk) :=
  if embeddings.isEmpty ∨ texts.isEmpty then
    .ok (db, disk)
  else if embeddings.length ≠ texts.length then
    .error .valueError
  else
    match db.index.add embeddings with
    | .error _ => .error .dimensionMismatch
    | .ok ix =>
      let md := match metadata with
        | some ms => if ms.isEmpty then List.replicate texts.length Metadata.empty else ms
        | none => List.replicate texts.length Metadata.empty
      let db' : VectorDB :=
        { db with
            index := ix
            texts := db.texts ++ texts
            metadata := db.metadata ++ md
            embeddings := db.embeddings ++ embeddings.map some }
      .ok (db', db'.save disk)

/-- The result-collection loop of `VectorDB.search` (lines 90-96): for
each returned `(distance, position)` pair, `self.texts[idx]` is an
unguarded list access (raises `IndexError` out of range), while the
metadata access is bounds-checked, falling back to an empty dict.
The `idx >= 0` validity test of line 92 is always true here because the
caller passes `k ≤ ntotal`, so the flat index never pads with `-1`. -/
def collectResults (texts : List String) (metadata : List Metadata) :
    List (Scalar × Nat) → Except DBError (List (String × Scalar × Metadata))
  | [] => .ok []
  | h :: rest =>
    match texts.get? h.2 with
    | none => .error .indexError
    | some text =>
      let md := (metadata.get? h.2).getD Metadata.empty
      match collectResults texts metadata rest with
      | .error e => .error e
      | .ok rs => .ok ((text, h.1, md) :: rs)

/-- `VectorDB.search` (lines 69-98): empty result on an empty store (no
index call at all); otherwise queries the index with `min(k, ntotal)` and
collects `(text, distance, metadata)` triples. -/
def VectorDB.search (db : VectorDB) (query_embedding : Vec) (k : Nat) :
    Except DBError (List (String × Scalar × Metadata)) :=
  if db.index.ntotal = 0 then
    .ok []
  else
    match db.index.search query_embedding (min k db.index.ntotal) with
    | .error _ => .error .dimensionMismatch
    | .ok hits => collectResults db.texts db.metadata hits

/-- `VectorDB.clear` (lines 267-278): reset to empty and remove both
snapshot files. -/
def VectorDB.clear (db : VectorDB) (_disk : Disk) : VectorDB × Disk :=
  (db.resetEmpty, { indexFile := none, pklFile := none })

/-- The positions scheduled for removal by
`VectorDB.delete_documents_by_filename` (lines 162-165): every index `i`
with `self.metadata[i].get("filename") == filename`.  The Python source
collects them in a `set`; enumeration order gives them here strictly
ascending, so the list also represents the set's sorted form. -/
def removalIndices (metadata : List Metadata) (filename : String) : List Nat :=
  (metadata.enum.filter (fun p => decide (p.2.filename = some filename))).map Prod.fst

/-- The legacy-path removal (lines 182-190): iterate the removal
positions in descending order and pop each one from a list when it is in
range (`List.eraseIdx` is the in-range pop and a no-op out of range,
matching the `if idx < len(...)` guards). -/
def popDescending {α : Type} (l : List α) (descIdxs : List Nat) : List α :=
  descIdxs.foldl (fun acc i => acc.eraseIdx i) l

/-- The rebuild loop of `VectorDB.delete_documents_by_filename`
(lines 206-217), iterating `i in range(len(self.texts))`.  For each
retained position: when the stored embedding is present
(`i < len(self.embeddings) and self.embeddings[i] is not None`) it is
re-inserted into the fresh index — the index `add` can raise —
otherwise a `None` placeholder is kept; then `self.texts[i]` (in range by
construction of the loop bound) and `self.metadata[i]` (an unguarded
access in the source, raising `IndexError` when metadata is shorter than
texts) are appended. -/
def rebuildLoop (texts : List String) (metadata : List Metadata)
    (embeddings : List (Option Vec)) (toRemove : List Nat) :
    List Nat → IndexFlatL2 → List String → List Metadata → List (Option Vec) →
    Except DBError (IndexFlatL2 × List String × List Metadata × List (Option Vec))
  | [], ix, ts, ms, es => .ok (ix, ts, ms, es)
  | i :: is, ix, ts, ms, es =>
    if i ∈ toRemove then
      rebuildLoop texts metadata embeddings toRemove is ix ts ms es
    else
      match (embeddings.get? i).getD none with
      | some e =>
        match ix.add [e] with
        | .error _ => .error .dimensionMismatch
        | .ok ix' =>
          match metadata.get? i with
          | none => .error .indexError
          | some m =>
            rebuildLoop texts metadata embeddings toRemove is ix'
              (ts ++ [texts.getD i ""]) (ms ++ [m]) (es ++ [some e])
      | none =>
        match metadata.get? i with
        | none => .error .indexError
        | some m =>
          rebuildLoop texts metadata embeddings toRemove is ix
            (ts ++ [texts.getD i ""]) (ms ++ [m]) (es ++ [none])

/-- The legacy branch of `delete_documents_by_filename` (lines 174-197),
taken when no stored embedding is present at all (the pre-`embeddings`
snapshot format): the matching positions are popped from the three lists
in descending order while the index is left untouched — the documented
degraded path — then the result is saved and the match count returned. -/
def VectorDB.legacyDelete (db : VectorDB) (disk : Disk) (filename : String) :
    Except DBError (Nat × VectorDB × Disk) :=
  .ok ((removalIndices db.metadata filename).length,
       { db with
           texts := popDescending db.texts (removalIndices db.metadata filename).reverse
           metadata := popDescending db.metadata (removalIndices db.metadata filename).reverse
           embeddings :=
             popDescending db.embeddings (removalIndices db.metadata filename).reverse },
       ({ db with
           texts := popDescending db.texts (removalIndices db.metadata filename).reverse
           metadata := popDescending db.metadata (removalIndices db.metadata filename).reverse
           embeddings :=
             popDescending db.embeddings (removalIndices db.metadata filename).reverse
         } : VectorDB).save disk)

/-- `VectorDB.delete_documents_by_filename` (lines 148-228).  Early 0 on
an empty index or when no metadata matches (no save in either case).
With no stored embedding at all, the legacy pop-only branch runs;
otherwise a fresh index is built from the retained records' embeddings
and the store is replaced wholesale (lines 199-228), returning the number
of matching positions.  (Line 171 also computes a `has_embeddings` flag
that the source never uses; it is omitted.) -/
def VectorDB.delete_documents_by_filename (db : VectorDB) (disk : Disk)
    (filename : String) : Except DBError (Nat × VectorDB × Disk) :=
  if db.index.ntotal = 0 then
    .ok (0, db, disk)
  else if (removalIndices db.metadata filename).isEmpty then
    .ok (0, db, disk)
  else if ¬ (¬ db.embeddings.isEmpty ∧ db.embeddings.any (·.isSome)) then
    db.legacyDelete disk filename
  else
    match rebuildLoop db.texts db.metadata db.embeddings
        (removalIndices db.metadata filename)
        (List.range db.texts.length) (IndexFlatL2.init db.dimension) [] [] [] with
    | .error e => .error e
    | .ok (ix, ts, ms, es) =>
      .ok ((removalIndices db.metadata filename).length,
           { db with index := ix, texts := ts, metadata := ms, embeddings := es },
           ({ db with index := ix, texts := ts, metadata := ms, embeddings := es }
             : VectorDB).save disk)

/-- One mutating operation on the store, as in spec section 8's
"sequences of insert/delete/clear operations". -/
inductive Op where
  | add (embeddings : List Vec) (texts : List String) (metadata : Option (List Metadata))
  | delete (filename : String)
  | clear
deriving Repr

/-- An operation respecting the documented insert preconditions (spec
section 4.2): a supplied non-empty metadata list must match the texts in
length.  Delete and clear have no precondition. -/
def Op.Conforming : Op → Prop
  | .add _ texts md =>
    match md with
    | some ms => ms = [] ∨ ms.length = texts.length
    | none => True
  | .delete _ => True
  | .clear => True

instance : DecidablePred Op.Conforming := fun op => by
  cases op with
  | add e t md =>
    cases md with
    | some ms => exact inferInstanceAs (Decidable (ms = [] ∨ ms.length = t.length))
    | none => exact inferInstanceAs (Decidable True)
  | delete f => exact inferInstanceAs (Decidable True)
  | clear => exact inferInstanceAs (Decidable True)

/-- Applying one operation to the (store, disk) pair.  A raising
operation (`.error`) leaves the store exactly as it was before the call —
which is what the Python objects look like after the exception, since
every raise point precedes every mutation of `self`. -/
def applyOp (s : VectorDB × Disk) : Op → VectorDB × Disk
  | .add embeddings texts md =>
    match s.1.add_documents s.2 embeddings texts md with
    | .ok s' => s'
    | .error _ => s
  | .delete filename =>
    match s.1.delete_documents_by_filename s.2 filename with
    | .ok (_, db', disk') => (db', disk')
    | .error _ => s
  | .clear => s.1.clear s.2

/-- Applying a finite sequence of operations, left to right. -/
def applyOps (s : VectorDB × Disk) (ops : List Op) : VectorDB × Disk :=
  ops.foldl applyOp s

/-- The store states produced by conforming use of the API: the index
dimension is the configured one, the record lists and the index are in
exact 1:1 positional correspondence — in particular every record retains
its embedding, which equals the index row at its position — and every
indexed vector has the configured dimension (spec section 3's data-model
invariants). -/
def VectorDB.WellFormed (db : VectorDB) : Prop :=
  db.index.d = db.dimension ∧
  db.texts.length = db.index.ntotal ∧
  db.metadata.length = db.index.ntotal ∧
  db.embeddings = db.index.vecs.map some ∧
  ∀ v ∈ db.index.vecs, v.length = db.dimension

instance (db : VectorDB) : Decidable db.WellFormed := by
  unfold VectorDB.WellFormed; infer_instance

/-!
The text chunker, `chunk_text` in `src/utils/text_processor.py`.

Text is modelled as `List Char`; `chunk_size` and `overlap` are modelled
as naturals, matching the source for the non-negative values every call
site uses (both call sites pass 1000 and 200).  Python's `str.strip()` is
modelled with `Char.isWhitespace`, covering the ASCII whitespace the
repository's inputs contain.
-/

/-- Python `str.strip()`: drop whitespace from both ends. -/
def pyStrip (l : List Char) : List Char :=
  ((l.dropWhile Char.isWhitespace).reverse.dropWhile Char.isWhitespace).reverse

/-- The sentence-boundary characters of `chunk_text` (line 34). -/
def sentence_endings : List Char := ['.', '!', '?', '\n']

/-- The boundary search of `chunk_text` (lines 35-38):
`for i in range(end, lo, -1)` visits `i = e, e-1, ..., lo+1` in that
order, modelled as the first hit of `find?` on that descending index
list (`(range' (lo+1) (e-lo)).reverse` is exactly `[e, e-1, ..., lo+1]`);
on a sentence-ending character at `i` the adjusted end is `i + 1`. -/
def boundaryScan (text : List Char) (lo e : Nat) : Option Nat :=
  (((List.range' (lo + 1) (e - lo)).reverse).find?
      (fun i => decide (text.getD i ' ' ∈ sentence_endings))).map (· + 1)

/-- The end position for the chunk starting at `start` (lines 29-38):
`start + chunk_size`, pulled back to just after a sentence ending found in
the lookback window `range(end, max(start, end - 200), -1)` when the
tentative end is inside the text. -/
def chunkEnd (text : List Char) (chunk_size start : Nat) : Nat :=
  if start + chunk_size < text.length then
    match boundaryScan text (max start (start + chunk_size - 200)) (start + chunk_size) with
    | some e' => e'
    | none => start + chunk_size
  else start + chunk_size

/-- The next start position (lines 45-50): `end - overlap`, forced up to
`end` by the `if start >= end` guard (which, for natural `overlap`, fires
exactly when `overlap = 0` or `end = 0`). -/
def chunkNextStart (overlap e : Nat) : Nat :=
  if e - overlap ≥ e then e else e - overlap

/-- One iteration of the chunking loop, as a start-position transformer:
from `start`, the next chunk's start. -/
def chunkStep (text : List Char) (chunk_size overlap start : Nat) : Nat :=
  chunkNextStart overlap (chunkEnd text chunk_size start)

/-- The `while start < len(text)` loop of `chunk_text` (lines 27-50),
with explicit fuel (the source loop does not terminate for every
parameter choice; every run examined by a theorem below stays within its
fuel).  Each iteration extracts `text[start:end].strip()`, keeps it when
non-empty, and moves to the next start. -/
def chunkLoop (text : List Char) (chunk_size overlap : Nat) :
    Nat → Nat → List (List Char)
  | 0, _ => []
  | fuel + 1, start =>
    if start < text.length then
      (if (pyStrip ((text.drop start).take (chunkEnd text chunk_size start - start))).isEmpty
       then []
       else [pyStrip ((text.drop start).take (chunkEnd text chunk_size start - start))]) ++
        chunkLoop text chunk_size overlap fuel (chunkStep text chunk_size overlap start)
    else []

/-- `chunk_text` (lines 7-52): empty result for empty-after-strip input;
otherwise the loop runs on the stripped text from position 0, and an
empty chunk list falls back to the whole (stripped) text.  The fuel
`length + 1` covers every terminating run that emits strictly increasing
start positions. -/
def chunk_text (text : List Char) (chunk_size overlap : Nat) : List (List Char) :=
  if (pyStrip text).isEmpty then []
  else if (chunkLoop (pyStrip text) chunk_size overlap ((pyStrip text).length + 1) 0).isEmpty
    then [pyStrip text]
  else chunkLoop (pyStrip text) chunk_size overlap ((pyStrip text).length + 1) 0

instance {ε α : Type} [DecidableEq ε] [DecidableEq α] :
    DecidableEq (Except ε α) := fun a b =>
  match a, b with
  | .ok x, .ok y =>
    if h : x = y then isTrue (by rw [h])
    else isFalse (by intro hc; injection hc with hc'; exact h hc')
  | .ok _, .error _ => isFalse (fun hc => Except.noConfusion hc)
  | .error _, .ok _ => isFalse (fun hc => Except.noConfusion hc)
  | .error e, .error e' =>
    if h : e = e' then isTrue (by rw [h])
    else isFalse (by intro hc; injection hc with hc'; exact h hc')

/-! ### Concrete instances used by witnesses and counterexamples -/

/-- An empty disk: no snapshot files. -/
def emptyDisk : Disk := ⟨none, none⟩

/-- A fresh store of dimension 2 on an empty disk. -/
def dbC2 : VectorDB := VectorDB.init 2 emptyDisk

/-- A populated well-formed store: two files, three chunks. -/
def dbC3 : VectorDB :=
  ⟨2, ⟨2, [[1, 2], [3, 4], [5, 6]]⟩, ["x", "y", "z"],
   [⟨some "a.txt", some 0⟩, ⟨some "b.txt", some 0⟩, ⟨some "a.txt", some 1⟩],
   [some [1, 2], some [3, 4], some [5, 6]]⟩

/-- A fresh store of dimension 1 on an empty disk. -/
def dbC4 : VectorDB := VectorDB.init 1 emptyDisk

/-- An operation sequence exercising insert, delete and clear for the C1
witness. -/
def opsC1 : List Op :=
  [.add [[1, 2], [3, 4]] ["x", "y"] (some [⟨some "a", some 0⟩, ⟨some "a", some 1⟩]),
   .delete "a",
   .add [[5, 6]] ["z"] none,
   .clear]

/-- The store produced by the C4 witness insert. -/
def dbC4out : VectorDB := ⟨1, ⟨1, [[2]]⟩, ["t"], [Metadata.empty], [some [2]]⟩

/-- The disk written by the C4 witness insert. -/
def diskC4out : Disk :=
  ⟨some (.good ⟨1, [[2]]⟩),
   some (.good ⟨["t"], [Metadata.empty], [some [2]], some 1⟩)⟩

/-- A one-record store that gets cleared in the C8 witness. -/
def dbC8 : VectorDB := ⟨1, ⟨1, [[7]]⟩, ["a"], [Metadata.empty], [some [7]]⟩

/-- A disk whose pickle file is unreadable. -/
def corruptDisk : Disk := ⟨some (.good ⟨3, [[1, 2, 3]]⟩), some .corrupt⟩

/-- A legacy snapshot: one record, no stored embeddings list, no stored
dimension — the pre-`embeddings` database format handled by lines
135-139 of `vector_db.py`. -/
def legacyDiskC1 : Disk :=
  ⟨some (.good ⟨1, [[0]]⟩), some (.good ⟨["t"], [⟨some "a", some 0⟩], [], none⟩)⟩

/-- A second legacy snapshot (two records of one file) for the C10
witness. -/
def legacyDiskC10 : Disk :=
  ⟨some (.good ⟨1, [[0], [1]]⟩),
   some (.good ⟨["u", "v"], [⟨some "x", some 0⟩, ⟨some "x", some 1⟩], [], none⟩)⟩

/-- The store obtained by deleting file `"x"` on the store loaded from
`legacyDiskC10`: the legacy path empties the record lists but leaves both
index rows in place. -/
def dbC10 : VectorDB :=
  (applyOps (VectorDB.init 1 legacyDiskC10, legacyDiskC10) [Op.delete "x"]).1

/-- A well-formed store holding two distinct texts with the same
embedding, at positions 0 and 1. -/
def dbC7dup : VectorDB :=
  ⟨1, ⟨1, [[0], [0]]⟩, ["a", "b"], [Metadata.empty, Metadata.empty],
   [some [0], some [0]]⟩

/-- A well-formed store with three distinct vectors for the C7 witness. -/
def dbC7 : VectorDB :=
  ⟨2, ⟨2, [[0, 0], [3, 4], [6, 0]]⟩, ["v0", "v1", "v2"],
   [⟨some "f", some 0⟩, ⟨some "f", some 1⟩, ⟨some "f", some 2⟩],
   [some [0, 0], some [3, 4], some [6, 0]]⟩

/-! ## Theorems -/

/-! ### Helper lemmas about stripping and the chunk loop -/

theorem dropWhile_dropWhile (p : Char → Bool) (l : List Char) :
    (l.dropWhile p).dropWhile p = l.dropWhile p := by
  induction l with
  | nil => rfl
  | cons a l ih =>
    rw [List.dropWhile_cons]
    by_cases h : p a = true
    · rw [if_pos h]; exact ih
    · rw [if_neg h, List.dropWhile_cons, if_neg h]

theorem dropWhile_eq_self_of_head? (p : Char → Bool) (l : List Char)
    (h : ∀ c, l.head? = some c → p c = false) : l.dropWhile p = l := by
  cases l with
  | nil => rfl
  | cons a l => rw [List.dropWhile_cons, if_neg (by simp [h a rfl])]

/-- `strip` is idempotent: a stripped text strips to itself. -/
theorem pyStrip_idem (l : List Char) : pyStrip (pyStrip l) = pyStrip l := by
  have h1 : ((pyStrip l).dropWhile Char.isWhitespace) = pyStrip l := by
    apply dropWhile_eq_self_of_head?
    intro c hc
    unfold pyStrip at hc
    rw [List.head?_reverse] at hc
    have hXlast :
        ((l.dropWhile Char.isWhitespace).reverse).getLast? = some c := by
      conv_lhs =>
        rw [← List.takeWhile_append_dropWhile Char.isWhitespace
              (l.dropWhile Char.isWhitespace).reverse]
      rw [List.getLast?_append, hc]
      rfl
    rw [List.getLast?_reverse] at hXlast
    have hmatch := List.head?_dropWhile_not Char.isWhitespace l
    rw [hXlast] at hmatch
    exact hmatch
  have h2 : ((pyStrip l).reverse).dropWhile Char.isWhitespace = (pyStrip l).reverse := by
    have hrev : (pyStrip l).reverse =
        ((l.dropWhile Char.isWhitespace).reverse).dropWhile Char.isWhitespace := by
      unfold pyStrip
      rw [List.reverse_reverse]
    rw [hrev, dropWhile_dropWhile]
  calc pyStrip (pyStrip l)
      = ((((pyStrip l).dropWhile Char.isWhitespace).reverse).dropWhile
          Char.isWhitespace).reverse := rfl
    _ = (((pyStrip l).reverse).dropWhile Char.isWhitespace).reverse := by rw [h1]
    _ = (pyStrip l).reverse.reverse := by rw [h2]
    _ = pyStrip l := List.reverse_reverse _

/-- The boundary scan only ever returns a position in the scanned window:
strictly after the lookback floor (by two, as the hit index exceeds the
floor and the result is the hit plus one) and at most one past the
tentative end. -/
theorem boundaryScan_bounds (text : List Char) (lo e r : Nat)
    (h : boundaryScan text lo e = some r) : lo + 2 ≤ r ∧ r ≤ e + 1 := by
  unfold boundaryScan at h
  rcases hf : ((List.range' (lo + 1) (e - lo)).reverse).find?
      (fun i => decide (text.getD i ' ' ∈ sentence_endings)) with _ | i
  · rw [hf] at h; exact absurd h (by simp)
  · rw [hf] at h
    have h2 : i + 1 = r := by simpa using h
    have hi := List.mem_of_find?_eq_some hf
    rw [List.mem_reverse, List.mem_range'_1] at hi
    omega

/-- When the lookback is strictly shorter than `chunk_size - overlap`
(the reference's 200-unit lookback against `overlap + 198 < chunk_size`),
every chunk end lands strictly beyond `start + overlap`. -/
theorem chunkEnd_gt (text : List Char) (cs ov start : Nat)
    (hcs : ov + 198 < cs) : start + ov < chunkEnd text cs start := by
  unfold chunkEnd
  split
  · rcases hbs : boundaryScan text (max start (start + cs - 200)) (start + cs) with _ | e'
    · dsimp only; omega
    · dsimp only
      obtain ⟨hlo, _⟩ := boundaryScan_bounds text _ _ _ hbs
      have h1 := Nat.le_max_left start (start + cs - 200)
      have h2 := Nat.le_max_right start (start + cs - 200)
      omega
  · omega

/-- Forward progress of the chunking loop under the lookback condition:
the next start position is strictly larger. -/
theorem chunkStep_progress (text : List Char) (cs ov start : Nat)
    (hcs : ov + 198 < cs) : start < chunkStep text cs ov start := by
  have he := chunkEnd_gt text cs ov start hcs
  unfold chunkStep chunkNextStart
  split <;> omega

/-- With strict forward progress, the loop's value does not depend on the
fuel once the fuel covers the remaining text: the loop terminates. -/
theorem chunkLoop_fuel_eq (text : List Char) (cs ov : Nat) (hcs : ov + 198 < cs) :
    ∀ (k fuel1 fuel2 start : Nat), text.length - start ≤ k →
      text.length - start ≤ fuel1 → text.length - start ≤ fuel2 →
      chunkLoop text cs ov fuel1 start = chunkLoop text cs ov fuel2 start := by
  intro k
  induction k with
  | zero =>
    intro fuel1 fuel2 start h0 _ _
    have hs : ¬ start < text.length := by omega
    cases fuel1 <;> cases fuel2 <;> simp [chunkLoop, hs]
  | succ k ih =>
    intro fuel1 fuel2 start hk h1 h2
    by_cases hs : start < text.length
    · obtain ⟨g1, rfl⟩ : ∃ g, fuel1 = g + 1 := ⟨fuel1 - 1, by omega⟩
      obtain ⟨g2, rfl⟩ : ∃ g, fuel2 = g + 1 := ⟨fuel2 - 1, by omega⟩
      simp only [chunkLoop, if_pos hs]
      congr 1
      have hprog := chunkStep_progress text cs ov start hcs
      exact ih g1 g2 (chunkStep text cs ov start) (by omega) (by omega) (by omega)
    · cases fuel1 <;> cases fuel2 <;> simp [chunkLoop, hs]

/-! ### Helper lemmas about the similarity index scan and result
collection -/

/-- The scored candidate list of a flat scan: every stored vector paired
with its squared distance to the query, tagged by position. -/
def scoredList (ix : IndexFlatL2) (q : Vec) : List (Scalar × Nat) :=
  ix.vecs.enum.map (fun pr => (sqL2 q pr.2, pr.1))

theorem IndexFlatL2.search_eq (ix : IndexFlatL2) (q : Vec) (k : Nat)
    (h : q.length = ix.d) :
    ix.search q k = .ok ((scoredList ix q |>.insertionSort hitLE).take k) := by
  unfold IndexFlatL2.search scoredList
  rw [if_pos h]

theorem length_sorted_scoredList (ix : IndexFlatL2) (q : Vec) :
    (scoredList ix q |>.insertionSort hitLE).length = ix.ntotal := by
  rw [List.length_insertionSort]
  unfold scoredList
  rw [List.length_map, List.enum_length]
  rfl

theorem mem_sorted_scoredList (ix : IndexFlatL2) (q : Vec) (p : Scalar × Nat)
    (hp : p ∈ (scoredList ix q |>.insertionSort hitLE)) :
    ∃ v, ix.vecs.get? p.2 = some v ∧ p.1 = sqL2 q v := by
  rw [(List.perm_insertionSort hitLE (scoredList ix q)).mem_iff] at hp
  unfold scoredList at hp
  rw [List.mem_map] at hp
  obtain ⟨pr, hpr, hpe⟩ := hp
  rw [List.mem_enum_iff_get?] at hpr
  refine ⟨pr.2, ?_, ?_⟩
  · rw [← hpe] at *; exact hpr
  · rw [← hpe]

theorem sorted_scoredList_mem (ix : IndexFlatL2) (q : Vec) (i : Nat) (v : Vec)
    (hv : ix.vecs.get? i = some v) :
    (sqL2 q v, i) ∈ (scoredList ix q |>.insertionSort hitLE) := by
  rw [(List.perm_insertionSort hitLE (scoredList ix q)).mem_iff]
  unfold scoredList
  rw [List.mem_map]
  exact ⟨(i, v), List.mem_enum_iff_get?.mpr hv, rfl⟩

/-- When every returned position is inside the texts list, the collection
loop of `search` succeeds and produces exactly the positionally looked-up
triples. -/
theorem collectResults_ok (texts : List String) (metadata : List Metadata)
    (hits : List (Scalar × Nat)) (h : ∀ p ∈ hits, p.2 < texts.length) :
    collectResults texts metadata hits =
      .ok (hits.map fun p =>
        (texts.getD p.2 "", p.1, (metadata.get? p.2).getD Metadata.empty)) := by
  induction hits with
  | nil => rfl
  | cons p rest ih =>
    unfold collectResults
    rcases hg : texts.get? p.2 with _ | tx
    · rw [List.get?_eq_none] at hg
      exact absurd (h p (List.mem_cons_self p rest)) (by omega)
    · have htx : texts.getD p.2 "" = tx := by
        rw [List.getD_eq_get?, hg]; rfl
      rw [ih (fun r hr => h r (List.mem_cons_of_mem p hr)), List.map_cons, htx]

/-- When some returned position is outside the texts list, the unguarded
`self.texts[idx]` access makes the collection loop raise `IndexError`. -/
theorem collectResults_error (texts : List String) (metadata : List Metadata)
    (hits : List (Scalar × Nat)) (h : ∃ p ∈ hits, texts.length ≤ p.2) :
    collectResults texts metadata hits = .error .indexError := by
  induction hits with
  | nil => obtain ⟨p, hp, _⟩ := h; exact absurd hp (by simp)
  | cons p rest ih =>
    unfold collectResults
    rcases hg : texts.get? p.2 with _ | tx
    · rfl
    · have hplen : p.2 < texts.length := by
        rcases Nat.lt_or_ge p.2 texts.length with h' | h'
        · exact h'
        · rw [List.get?_eq_none.mpr h'] at hg
          exact absurd hg (by simp)
      have hrest : ∃ r ∈ rest, texts.length ≤ r.2 := by
        obtain ⟨r, hr, hrlen⟩ := h
        rcases List.mem_cons.mp hr with rfl | hr'
        · omega
        · exact ⟨r, hr', hrlen⟩
      rw [ih hrest]

/-! ### Helper lemmas about deletion and the rebuild loop -/

theorem mem_removalIndices (metadata : List Metadata) (f : String) (i : Nat) :
    i ∈ removalIndices metadata f ↔
      ∃ m, metadata.get? i = some m ∧ m.filename = some f := by
  unfold removalIndices
  constructor
  · intro h
    rw [List.mem_map] at h
    obtain ⟨p, hp, hpi⟩ := h
    rw [List.mem_filter] at hp
    obtain ⟨hpe, hpf⟩ := hp
    rw [List.mem_enum_iff_get?] at hpe
    subst hpi
    exact ⟨p.2, hpe, of_decide_eq_true hpf⟩
  · rintro ⟨m, hm, hf⟩
    rw [List.mem_map]
    refine ⟨(i, m), ?_, rfl⟩
    rw [List.mem_filter]
    exact ⟨List.mem_enum_iff_get?.mpr hm, decide_eq_true hf⟩

theorem length_filter_enumFrom (p : Metadata → Bool) (l : List Metadata) :
    ∀ n, ((l.enumFrom n).filter (fun pr => p pr.2)).length = (l.filter p).length := by
  induction l with
  | nil => intro n; rfl
  | cons m l ih =>
    intro n
    rw [List.enumFrom, List.filter_cons, List.filter_cons]
    by_cases hm : p m = true
    · rw [if_pos (by simpa using hm), if_pos hm]
      simp only [List.length_cons, ih]
    · rw [if_neg (by simpa using hm), if_neg hm]
      exact ih (n + 1)

/-- The number of scheduled positions equals the number of matching
metadata entries. -/
theorem length_removalIndices (metadata : List Metadata) (f : String) :
    (removalIndices metadata f).length =
      (metadata.filter (fun m => decide (m.filename = some f))).length := by
  unfold removalIndices
  rw [List.length_map]
  exact length_filter_enumFrom (fun m => decide (m.filename = some f)) metadata 0

/-- A successful index `add`: the new index keeps the dimension and
appends the rows, and every row had the correct length. -/
theorem IndexFlatL2.add_ok (ix ix' : IndexFlatL2) (xs : List Vec)
    (h : ix.add xs = .ok ix') :
    ix' = ⟨ix.d, ix.vecs ++ xs⟩ ∧ ∀ x ∈ xs, x.length = ix.d := by
  unfold IndexFlatL2.add at h
  by_cases hall : xs.all (fun v => decide (v.length = ix.d)) = true
  · rw [if_pos hall] at h
    refine ⟨by injection h with h'; exact h'.symm, ?_⟩
    intro x hx
    rw [List.all_eq_true] at hall
    exact of_decide_eq_true (hall x hx)
  · rw [if_neg hall] at h
    exact absurd h (by simp)

/-- The rebuild loop, fully characterized on an index set whose retained
members all carry a stored embedding of the right dimension: it succeeds
and appends, in order, the retained positions' index rows, texts,
metadata and embeddings. -/
theorem rebuildLoop_spec (texts : List String) (metadata : List Metadata)
    (embeddings : List (Option Vec)) (toRemove : List Nat) (dim : Nat) :
    ∀ (is : List Nat) (ix : IndexFlatL2) (ts : List String) (ms : List Metadata)
      (es : List (Option Vec)),
      ix.d = dim →
      (∀ i ∈ is, i ∉ toRemove →
        ∃ m v, metadata.get? i = some m ∧ embeddings.get? i = some (some v) ∧
          v.length = dim) →
      rebuildLoop texts metadata embeddings toRemove is ix ts ms es =
        .ok (⟨dim, ix.vecs ++ (is.filter (fun i => decide (i ∉ toRemove))).map
                (fun i => (embeddings.getD i none).getD [])⟩,
             ts ++ (is.filter (fun i => decide (i ∉ toRemove))).map
                (fun i => texts.getD i ""),
             ms ++ (is.filter (fun i => decide (i ∉ toRemove))).map
                (fun i => metadata.getD i Metadata.empty),
             es ++ (is.filter (fun i => decide (i ∉ toRemove))).map
                (fun i => embeddings.getD i none)) := by
  intro is
  induction is with
  | nil =>
    intro ix ts ms es hd _
    cases ix with
    | mk d vecs =>
      simp only at hd
      subst hd
      simp [rebuildLoop]
  | cons i is ih =>
    intro ix ts ms es hd hall
    rw [rebuildLoop]
    by_cases hmem : i ∈ toRemove
    · rw [if_pos hmem,
        ih ix ts ms es hd (fun j hj hjr => hall j (List.mem_cons_of_mem i hj) hjr)]
      have hfil : (i :: is).filter (fun j => decide (j ∉ toRemove)) =
          is.filter (fun j => decide (j ∉ toRemove)) := by
        rw [List.filter_cons, if_neg (by simp [hmem])]
      rw [hfil]
    · rw [if_neg hmem]
      obtain ⟨m, v, hm, hv, hvd⟩ := hall i (List.mem_cons_self i is) hmem
      have hgv : (embeddings.get? i).getD none = some v := by rw [hv]; rfl
      rw [hgv]
      have hadd : ix.add [v] = .ok ⟨ix.d, ix.vecs ++ [v]⟩ := by
        unfold IndexFlatL2.add
        rw [if_pos (by simp [hvd, hd])]
      dsimp only
      rw [hadd]
      dsimp only
      rw [hm]
      dsimp only
      rw [ih ⟨ix.d, ix.vecs ++ [v]⟩ (ts ++ [texts.getD i ""]) (ms ++ [m])
          (es ++ [some v]) hd
          (fun j hj hjr => hall j (List.mem_cons_of_mem i hj) hjr)]
      have hfil : (i :: is).filter (fun j => decide (j ∉ toRemove)) =
          i :: is.filter (fun j => decide (j ∉ toRemove)) := by
        rw [List.filter_cons, if_pos (by simp [hmem])]
      have hmd : metadata.getD i Metadata.empty = m := by
        rw [List.getD_eq_get?, hm]; rfl
      have hed : embeddings.getD i none = some v := hgv.symm ▸ hgv
      rw [hfil, List.map_cons, List.map_cons, List.map_cons, List.map_cons,
        hmd, hed]
      simp [List.append_assoc]

/-- Positional filtering over `range` expressed as value filtering over a
zip: when a predicate on positions is read off the metadata at that
position, mapping a positional getter over the kept positions equals
filtering the zipped value/metadata pairs. -/
theorem range_filter_map_spec {β : Type} (P : Metadata → Bool) :
    ∀ (vs : List β) (ms : List Metadata) (g : Nat → β),
      vs.length = ms.length →
      (∀ j, j < vs.length → vs.get? j = some (g j)) →
      ((List.range vs.length).filter (fun i => P (ms.getD i Metadata.empty))).map g
        = ((vs.zip ms).filter (fun p => P p.2)).map Prod.fst := by
  intro vs
  induction vs with
  | nil => intro ms g _ _; simp
  | cons v vs ih =>
    intro ms g hlen hg
    cases ms with
    | nil => simp at hlen
    | cons m ms =>
      rw [List.length_cons, List.range_succ_eq_map, List.filter_cons]
      have htail : (((List.range vs.length).map Nat.succ).filter
            (fun i => P ((m :: ms).getD i Metadata.empty))).map g
          = (((List.range vs.length).filter
              (fun i => P (ms.getD i Metadata.empty))).map Nat.succ).map g := by
        rw [List.filter_map Nat.succ (List.range vs.length)]
        rfl
      have hg0 : g 0 = v := by
        have := hg 0 (by simp)
        simp at this
        exact this.symm
      have hzip : ((v :: vs).zip (m :: ms)).filter (fun p => P p.2) =
          if P m then (v, m) :: ((vs.zip ms).filter (fun p => P p.2))
          else (vs.zip ms).filter (fun p => P p.2) := by
        rw [List.zip_cons_cons, List.filter_cons]
      have hih : ((List.range vs.length).filter
            (fun i => P (ms.getD i Metadata.empty))).map (g ∘ Nat.succ)
          = ((vs.zip ms).filter (fun p => P p.2)).map Prod.fst := by
        apply ih ms (g ∘ Nat.succ) (by simpa using hlen)
        intro j hj
        have := hg (j + 1) (by simp; omega)
        simpa using this
      by_cases hPm : P m = true
      · rw [if_pos (by simpa using hPm)]
        rw [List.map_cons, htail, List.map_map, hih, hg0, hzip, if_pos hPm,
          List.map_cons]
      · rw [if_neg (by simpa using hPm)]
        rw [htail, List.map_map, hih, hzip, if_neg hPm]

/-- Filtering a self-zip by the second component and projecting the first
is just filtering. -/
theorem zip_self_filter_map (P : Metadata → Bool) (ms : List Metadata) :
    ((ms.zip ms).filter (fun p => P p.2)).map Prod.fst = ms.filter P := by
  induction ms with
  | nil => rfl
  | cons m ms ih =>
    rw [List.zip_cons_cons, List.filter_cons, List.filter_cons]
    by_cases hPm : P m = true
    · rw [if_pos hPm, if_pos hPm, List.map_cons, ih]
    · rw [if_neg hPm, if_neg hPm, ih]

theorem getD_mem_of_lt {α : Type} (l : List α) (i : Nat) (d : α)
    (h : i < l.length) : l.getD i d ∈ l := by
  rw [List.getD_eq_get l d h]
  exact List.get_mem l i h

theorem get?_eq_some_getD {α : Type} (l : List α) (i : Nat) (d : α)
    (h : i < l.length) : l.get? i = some (l.getD i d) := by
  rw [List.getD_eq_get?]
  rcases h' : l.get? i with _ | x
  · rw [List.get?_eq_none] at h'
    omega
  · rfl

/-- The keep predicate of delete-by-filename, on metadata values. -/
def keepMeta (f : String) : Metadata → Bool :=
  fun m => ! decide (m.filename = some f)

/-- Full characterization of `delete_documents_by_filename` on a
well-formed store: it succeeds, returns the exact number of records whose
metadata filename equals the argument, keeps precisely the non-matching
records in their original relative order (texts, metadata, embeddings
filtered in lock-step), leaves a well-formed store with the same
configured dimension — in particular an index rebuilt to hold exactly the
retained embeddings — and a second identical call deletes nothing and
changes nothing. -/
theorem delete_spec (db : VectorDB) (disk : Disk) (f : String)
    (hwf : db.WellFormed) :
    ∃ db' disk',
      db.delete_documents_by_filename disk f =
        .ok ((db.metadata.filter (fun m => decide (m.filename = some f))).length,
             db', disk') ∧
      db'.texts = ((db.texts.zip db.metadata).filter
          (fun p => keepMeta f p.2)).map Prod.fst ∧
      db'.metadata = db.metadata.filter (keepMeta f) ∧
      db'.embeddings = ((db.embeddings.zip db.metadata).filter
          (fun p => keepMeta f p.2)).map Prod.fst ∧
      db'.WellFormed ∧ db'.dimension = db.dimension ∧
      db'.delete_documents_by_filename disk' f = .ok (0, db', disk') := by
  obtain ⟨hd, hT, hM, hE, hV⟩ := hwf
  unfold IndexFlatL2.ntotal at hT hM
  by_cases h0 : db.index.ntotal = 0
  · -- empty store: everything is a no-op
    have h0' : db.index.vecs.length = 0 := h0
    have htx : db.texts = [] := List.length_eq_zero.mp (by omega)
    have hmd : db.metadata = [] := List.length_eq_zero.mp (by omega)
    have hvecs : db.index.vecs = [] := List.length_eq_zero.mp (by omega)
    have hem : db.embeddings = [] := by rw [hE, hvecs]; rfl
    refine ⟨db, disk, ?_, ?_, ?_, ?_, ⟨hd, hT, hM, hE, hV⟩, rfl, ?_⟩
    · unfold VectorDB.delete_documents_by_filename
      rw [if_pos h0, hmd]
      rfl
    · rw [htx, hmd]; rfl
    · rw [hmd]; rfl
    · rw [hem, hmd]; rfl
    · unfold VectorDB.delete_documents_by_filename
      rw [if_pos h0]
  · by_cases hrem : removalIndices db.metadata f = []
    · -- no matching record: count 0, store untouched
      have hnone : ∀ m ∈ db.metadata, ¬ m.filename = some f := by
        intro m hm hmf
        obtain ⟨i, hi⟩ := List.get?_of_mem hm
        have hmem : i ∈ removalIndices db.metadata f :=
          (mem_removalIndices db.metadata f i).mpr ⟨m, hi, hmf⟩
        rw [hrem] at hmem
        exact absurd hmem (by simp)
      have hcall : db.delete_documents_by_filename disk f = .ok (0, db, disk) := by
        unfold VectorDB.delete_documents_by_filename
        rw [if_neg h0, if_pos (by rw [hrem]; rfl)]
      refine ⟨db, disk, ?_, ?_, ?_, ?_, ⟨hd, hT, hM, hE, hV⟩, rfl, hcall⟩
      · rw [hcall]
        have : db.metadata.filter (fun m => decide (m.filename = some f)) = [] :=
          List.filter_eq_nil_iff.mpr
            (fun m hm => by simpa using hnone m hm)
        rw [this]
        rfl
      · rw [List.filter_eq_self.mpr, List.map_fst_zip]
        · omega
        · intro p hp
          have := (List.of_mem_zip hp).2
          unfold keepMeta
          simpa using hnone p.2 this
      · rw [List.filter_eq_self.mpr]
        intro m hm
        unfold keepMeta
        simpa using hnone m hm
      · rw [List.filter_eq_self.mpr, List.map_fst_zip]
        · rw [hE, List.length_map]; omega
        · intro p hp
          have := (List.of_mem_zip hp).2
          unfold keepMeta
          simpa using hnone p.2 this
    · -- some record matches: the rebuild path runs
      have hvecsne : db.index.vecs ≠ [] := by
        intro h
        exact h0 (by unfold IndexFlatL2.ntotal; rw [h]; rfl)
      have hembne : db.embeddings.isEmpty = false := by
        rw [hE]
        rcases hv : db.index.vecs with _ | ⟨v, vs⟩
        · exact absurd hv hvecsne
        · rfl
      have hsome : db.embeddings.any (·.isSome) = true := by
        rw [hE]
        rcases hv : db.index.vecs with _ | ⟨v, vs⟩
        · exact absurd hv hvecsne
        · simp
      have hloop := rebuildLoop_spec db.texts db.metadata db.embeddings
        (removalIndices db.metadata f) db.dimension
        (List.range db.texts.length) (IndexFlatL2.init db.dimension) [] [] []
        rfl
        (by
          intro i hi _
          rw [List.mem_range] at hi
          refine ⟨db.metadata.getD i Metadata.empty, db.index.vecs.getD i [],
            get?_eq_some_getD db.metadata i Metadata.empty (by omega), ?_, ?_⟩
          · rw [hE, List.get?_map,
              get?_eq_some_getD db.index.vecs i [] (by omega)]
            rfl
          · exact hV _ (getD_mem_of_lt db.index.vecs i [] (by omega)))
      have hTM : db.texts.length = db.metadata.length := by omega
      have hTE : db.texts.length = db.embeddings.length := by
        rw [hE, List.length_map]; omega
      set RI := removalIndices db.metadata f with hRI
      set keptIs := (List.range db.texts.length).filter
        (fun i => decide (i ∉ RI)) with hkept
      set T := keptIs.map (fun i => db.texts.getD i "") with hTdef
      set M := keptIs.map (fun i => db.metadata.getD i Metadata.empty) with hMdef
      set ES := keptIs.map (fun i => db.embeddings.getD i none) with hESdef
      set E := keptIs.map (fun i => (db.embeddings.getD i none).getD []) with hEdef
      have hkeptRange : ∀ i ∈ keptIs, i < db.texts.length := by
        intro i hi
        rw [hkept] at hi
        have := List.mem_of_mem_filter hi
        rwa [List.mem_range] at this
      have hgetE : ∀ i, i < db.texts.length →
          db.embeddings.get? i = some (some (db.index.vecs.getD i [])) := by
        intro i hi
        rw [hE, List.get?_map, get?_eq_some_getD db.index.vecs i [] (by omega)]
        rfl
      have hptw : ∀ i ∈ keptIs,
          db.embeddings.getD i none = some ((db.embeddings.getD i none).getD []) := by
        intro i hi
        rw [List.getD_eq_get?, hgetE i (hkeptRange i hi)]
        rfl
      have hcong : ∀ i ∈ List.range db.texts.length,
          decide (i ∉ RI) = keepMeta f (db.metadata.getD i Metadata.empty) := by
        intro i hi
        rw [List.mem_range] at hi
        unfold keepMeta
        rw [decide_not]
        congr 1
        rw [decide_eq_decide, hRI, mem_removalIndices]
        constructor
        · rintro ⟨m, hm, hf⟩
          rw [get?_eq_some_getD db.metadata i Metadata.empty (by omega)] at hm
          injection hm with hm'
          rw [hm']
          exact hf
        · intro hf
          exact ⟨_, get?_eq_some_getD db.metadata i Metadata.empty (by omega), hf⟩
      have hTeq : T = ((db.texts.zip db.metadata).filter
          (fun p => keepMeta f p.2)).map Prod.fst := by
        rw [hTdef, hkept, List.filter_congr hcong]
        exact range_filter_map_spec (keepMeta f) db.texts db.metadata _ hTM
          (fun j hj => get?_eq_some_getD db.texts j "" hj)
      have hMeq : M = db.metadata.filter (keepMeta f) := by
        rw [hMdef, hkept, List.filter_congr hcong]
        rw [show db.texts.length = db.metadata.length from hTM]
        rw [range_filter_map_spec (keepMeta f) db.metadata db.metadata _ rfl
          (fun j hj => get?_eq_some_getD db.metadata j Metadata.empty hj)]
        exact zip_self_filter_map (keepMeta f) db.metadata
      have hESeq : ES = ((db.embeddings.zip db.metadata).filter
          (fun p => keepMeta f p.2)).map Prod.fst := by
        rw [hESdef, hkept, List.filter_congr hcong]
        rw [show db.texts.length = db.embeddings.length from hTE]
        exact range_filter_map_spec (keepMeta f) db.embeddings db.metadata _
          (by omega) (fun j hj => get?_eq_some_getD db.embeddings j none hj)
      have hESsome : ES = E.map some := by
        rw [hESdef, hEdef, List.map_map]
        apply List.map_congr_left
        intro i hi
        exact hptw i hi
      have hVE : ∀ v ∈ E, v.length = db.dimension := by
        intro v hv
        rw [hEdef] at hv
        obtain ⟨i, hi, rfl⟩ := List.mem_map.mp hv
        have hieq : db.embeddings.getD i none =
            some (db.index.vecs.getD i []) := by
          rw [List.getD_eq_get?, hgetE i (hkeptRange i hi)]
          rfl
        rw [hieq]
        exact hV _ (getD_mem_of_lt db.index.vecs i []
          (by have := hkeptRange i hi; omega))
      set dbR : VectorDB := { db with index := ⟨db.dimension, E⟩, texts := T, metadata := M, embeddings := ES } with hdbR
      have hcall : db.delete_documents_by_filename disk f =
          .ok (RI.length, dbR, dbR.save disk) := by
        unfold VectorDB.delete_documents_by_filename
        rw [← hRI]
        rw [if_neg h0,
          if_neg (by rw [hRI]; simpa [List.isEmpty_iff] using hrem),
          if_neg (fun h => h ⟨by simp [hembne], hsome⟩)]
        rw [hloop, hdbR]
        rfl
      have hwf' : dbR.WellFormed := by
        rw [hdbR]
        refine ⟨rfl, ?_, ?_, ?_, ?_⟩
        · show T.length = E.length
          rw [hTdef, hEdef, List.length_map, List.length_map]
        · show M.length = E.length
          rw [hMdef, hEdef, List.length_map, List.length_map]
        · exact hESsome
        · exact hVE
      have hsecond : dbR.delete_documents_by_filename (dbR.save disk) f =
          .ok (0, dbR, dbR.save disk) := by
        unfold VectorDB.delete_documents_by_filename
        by_cases h0' : dbR.index.ntotal = 0
        · rw [if_pos h0']
        · have hremM : removalIndices M f = [] := by
            rw [List.eq_nil_iff_forall_not_mem]
            intro i hi
            rw [mem_removalIndices] at hi
            obtain ⟨m, hm, hf⟩ := hi
            have hmM : m ∈ M := List.get?_mem hm
            rw [hMeq] at hmM
            have hkeep := (List.mem_filter.mp hmM).2
            unfold keepMeta at hkeep
            simp only [Bool.not_eq_true', decide_eq_false_iff_not] at hkeep
            exact hkeep hf
          rw [if_neg h0',
            if_pos (by
              show (removalIndices dbR.metadata f).isEmpty = true
              rw [hdbR]
              dsimp only
              rw [hremM]
              rfl)]
      refine ⟨dbR, dbR.save disk, ?_, ?_, ?_, ?_, hwf', ?_, hsecond⟩
      · rw [hcall, hRI, length_removalIndices]
      · rw [hdbR]; exact hTeq
      · rw [hdbR]; exact hMeq
      · rw [hdbR]; exact hESeq
      · rw [hdbR]

/-- C3: On every store in which every record retains its embedding (the
well-formed states of spec section 3), `delete_documents_by_filename f`
removes exactly the records whose metadata filename equals `f` by exact
string match, keeps the remaining records in their original relative
order with the index rebuilt to contain exactly their embeddings (the
resulting store is again well-formed, so its index rows are precisely the
retained embeddings, in order), and returns the number of records
removed; a second call with the same `f` then returns 0 and changes
nothing. -/
theorem C3_delete_by_filename_spec (db : VectorDB) (disk : Disk) (f : String)
    (hwf : db.WellFormed) :
    ∃ db' disk',
      db.delete_documents_by_filename disk f =
        .ok ((db.metadata.filter (fun m => decide (m.filename = some f))).length,
             db', disk') ∧
      db'.texts = ((db.texts.zip db.metadata).filter
          (fun p => keepMeta f p.2)).map Prod.fst ∧
      db'.metadata = db.metadata.filter (keepMeta f) ∧
      db'.embeddings = ((db.embeddings.zip db.metadata).filter
          (fun p => keepMeta f p.2)).map Prod.fst ∧
      db'.WellFormed ∧ db'.dimension = db.dimension ∧
      db'.delete_documents_by_filename disk' f = .ok (0, db', disk') :=
  delete_spec db disk f hwf

theorem C3_witness :
    dbC3.WellFormed ∧
      ∃ db' disk',
        dbC3.delete_documents_by_filename emptyDisk "a.txt" =
          .ok ((dbC3.metadata.filter
                (fun m => decide (m.filename = some "a.txt"))).length,
               db', disk') ∧
        db'.texts = ((dbC3.texts.zip dbC3.metadata).filter
            (fun p => keepMeta "a.txt" p.2)).map Prod.fst ∧
        db'.metadata = dbC3.metadata.filter (keepMeta "a.txt") ∧
        db'.embeddings = ((dbC3.embeddings.zip dbC3.metadata).filter
            (fun p => keepMeta "a.txt" p.2)).map Prod.fst ∧
        db'.WellFormed ∧ db'.dimension = dbC3.dimension ∧
        db'.delete_documents_by_filename disk' "a.txt" = .ok (0, db', disk') :=
  ⟨by decide, C3_delete_by_filename_spec dbC3 emptyDisk "a.txt" (by decide)⟩

/-! ### Helper lemmas for operation sequences (claim C1) -/

theorem add_preserves_wf (db : VectorDB) (disk : Disk) (embs : List Vec)
    (txts : List String) (md : Option (List Metadata)) (hwf : db.WellFormed)
    (hconf : Op.Conforming (.add embs txts md)) :
    (applyOp (db, disk) (.add embs txts md)).1.WellFormed := by
  rcases hres : db.add_documents disk embs txts md with err | p
  · simp only [applyOp, hres]
    exact hwf
  · simp only [applyOp, hres]
    obtain ⟨hd, hT, hM, hE, hV⟩ := hwf
    unfold VectorDB.add_documents at hres
    by_cases hemp : embs.isEmpty = true ∨ txts.isEmpty = true
    · rw [if_pos hemp] at hres
      injection hres with h'
      rw [← h']
      exact ⟨hd, hT, hM, hE, hV⟩
    · rw [if_neg hemp] at hres
      by_cases hlen : embs.length = txts.length
      · rw [if_neg (by simpa using hlen)] at hres
        rcases hadd : db.index.add embs with e | ix
        · rw [hadd] at hres
          exact absurd hres (by simp)
        · rw [hadd] at hres
          injection hres with h'
          rw [← h']
          obtain ⟨hix, hall⟩ := IndexFlatL2.add_ok db.index ix embs hadd
          subst hix
          refine ⟨hd, ?_, ?_, ?_, ?_⟩
          · show (db.texts ++ txts).length = (db.index.vecs ++ embs).length
            rw [List.length_append, List.length_append]
            unfold IndexFlatL2.ntotal at hT
            omega

          · show (db.metadata ++ _).length = (db.index.vecs ++ embs).length
            have hmdlen : (match md with
                | some ms => if ms.isEmpty = true
                    then List.replicate txts.length Metadata.empty else ms
                | none => List.replicate txts.length Metadata.empty).length
                = txts.length := by
              rcases md with _ | ms
              · exact List.length_replicate _ _
              · dsimp only
                have hconf' : ms = [] ∨ ms.length = txts.length := hconf
                rcases hconf' with hnil | hms
                · subst hnil
                  simp
                · by_cases hms0 : ms.isEmpty = true
                  · rw [if_pos hms0]
                    exact List.length_replicate _ _
                  · rw [if_neg hms0]
                    exact hms
            rw [List.length_append, List.length_append, hmdlen]
            unfold IndexFlatL2.ntotal at hM
            omega
          · show db.embeddings ++ embs.map some = (db.index.vecs ++ embs).map some
            rw [List.map_append, hE]
          · show ∀ v ∈ db.index.vecs ++ embs, v.length = db.dimension
            intro v hv
            rcases List.mem_append.mp hv with hv' | hv'
            · exact hV v hv'
            · rw [← hd]
              exact hall v hv'
      · rw [if_pos (by simpa using hlen)] at hres
        exact absurd hres (by simp)

theorem delete_preserves_wf (db : VectorDB) (disk : Disk) (f : String)
    (hwf : db.WellFormed) :
    (applyOp (db, disk) (.delete f)).1.WellFormed := by
  obtain ⟨db', disk', hcall, _, _, _, hwf', _, _⟩ := delete_spec db disk f hwf
  simp only [applyOp, hcall]
  exact hwf'

theorem clear_preserves_wf (db : VectorDB) (disk : Disk) :
    (applyOp (db, disk) .clear).1.WellFormed := by
  exact ⟨rfl, rfl, rfl, rfl, fun v hv => absurd hv (List.not_mem_nil v)⟩

theorem applyOps_preserves_wf :
    ∀ (ops : List Op) (s : VectorDB × Disk), s.1.WellFormed →
      (∀ op ∈ ops, op.Conforming) → (applyOps s ops).1.WellFormed := by
  intro ops
  induction ops with
  | nil => intro s h _; exact h
  | cons op rest ih =>
    intro s hs hc
    show (List.foldl applyOp s (op :: rest)).1.WellFormed
    rw [List.foldl_cons]
    apply ih
    · rcases op with ⟨e, t, m⟩ | f | _
      · exact add_preserves_wf s.1 s.2 e t m hs (hc _ (List.mem_cons_self _ _))
      · exact delete_preserves_wf s.1 s.2 f hs
      · exact clear_preserves_wf s.1 s.2
    · intro o ho
      exact hc o (List.mem_cons_of_mem _ ho)

/-- C1 counterexample: a store constructed over a legacy snapshot (no
stored embeddings) takes the legacy delete path, which removes the
record's text and metadata while leaving the index row in place: after
the single (precondition-respecting) delete operation,
`size() = 1 ≠ 0 = len(texts)`. -/
theorem C1_counterexample :
    (∀ op ∈ [Op.delete "a"], op.Conforming) ∧
      ¬ ((applyOps (VectorDB.init 1 legacyDiskC1, legacyDiskC1)
            [Op.delete "a"]).1.size =
         (applyOps (VectorDB.init 1 legacyDiskC1, legacyDiskC1)
            [Op.delete "a"]).1.texts.length) := by
  refine ⟨by decide, by decide⟩

/-- C1 (amended): For every finite sequence of add_documents,
delete_documents_by_filename and clear operations applied to a store
whose records all retain their embeddings (a well-formed store, e.g. any
store built by the API from empty) and whose add operations respect the
documented insert precondition (a supplied non-empty metadata list
matches the texts in length), after the sequence — hence, by
universality, after every operation of every sequence —
`size()` equals `len(texts)` equals `len(metadata)`. -/
theorem C1_invariant (db : VectorDB) (disk : Disk) (ops : List Op)
    (hwf : db.WellFormed) (hconf : ∀ op ∈ ops, op.Conforming) :
    (applyOps (db, disk) ops).1.size = (applyOps (db, disk) ops).1.texts.length ∧
      (applyOps (db, disk) ops).1.texts.length =
        (applyOps (db, disk) ops).1.metadata.length := by
  obtain ⟨hd, hT, hM, hE, hV⟩ := applyOps_preserves_wf ops (db, disk) hwf hconf
  unfold VectorDB.size
  exact ⟨hT.symm, hT.trans hM.symm⟩

theorem C1_witness :
    ((VectorDB.init 2 emptyDisk).WellFormed ∧ (∀ op ∈ opsC1, op.Conforming)) ∧
      ((applyOps (VectorDB.init 2 emptyDisk, emptyDisk) opsC1).1.size =
          (applyOps (VectorDB.init 2 emptyDisk, emptyDisk) opsC1).1.texts.length ∧
        (applyOps (VectorDB.init 2 emptyDisk, emptyDisk) opsC1).1.texts.length =
          (applyOps (VectorDB.init 2 emptyDisk, emptyDisk) opsC1).1.metadata.length) :=
  ⟨⟨by decide, by decide⟩,
   C1_invariant (VectorDB.init 2 emptyDisk) emptyDisk opsC1 (by decide) (by decide)⟩

/-- C10: In `search`, the texts lookup at a returned position is
unguarded while the metadata lookup is bounds-checked.  Accordingly, on
every store whose index holds more entries than the texts list — such
states are reachable through the legacy delete path, which removes texts
and metadata without rebuilding the index — some dimension-correct query
makes `search` raise `IndexError`; and the texts lookup stays in range
for all dimension-correct queries exactly when
`index.ntotal ≤ len(texts)`. -/
theorem C10_unguarded_text_lookup (db : VectorDB) :
    (db.texts.length < db.index.ntotal →
      ∃ q k, q.length = db.index.d ∧ db.search q k = .error .indexError) ∧
    (db.index.ntotal ≤ db.texts.length →
      ∀ q k, q.length = db.index.d → ∃ rs, db.search q k = .ok rs) := by
  constructor
  · intro hlt
    refine ⟨List.replicate db.index.d 0, db.index.ntotal, List.length_replicate _ _, ?_⟩
    set q : Vec := List.replicate db.index.d (0 : Scalar) with hq
    unfold VectorDB.search
    rw [if_neg (by omega : ¬ db.index.ntotal = 0)]
    rw [IndexFlatL2.search_eq db.index q _ (List.length_replicate _ _)]
    have hlen := length_sorted_scoredList db.index q
    rw [List.take_of_length_le (by rw [hlen, Nat.min_self])]
    apply collectResults_error
    have hsz : 0 < db.index.vecs.length := by
      unfold IndexFlatL2.ntotal at hlt; omega
    rcases hv : db.index.vecs.get? (db.index.vecs.length - 1) with _ | v
    · rw [List.get?_eq_none] at hv
      exact absurd hv (by omega)
    · refine ⟨(sqL2 q v, db.index.vecs.length - 1),
        sorted_scoredList_mem db.index q _ v hv, ?_⟩
      show db.texts.length ≤ db.index.vecs.length - 1
      unfold IndexFlatL2.ntotal at hlt
      omega
  · intro hle q k hq
    unfold VectorDB.search
    by_cases h0 : db.index.ntotal = 0
    · rw [if_pos h0]; exact ⟨[], rfl⟩
    · rw [if_neg h0, IndexFlatL2.search_eq db.index q _ hq]
      refine ⟨_, collectResults_ok _ _ _ ?_⟩
      intro p hp
      obtain ⟨v, hv, _⟩ := mem_sorted_scoredList db.index q p
        (List.mem_of_mem_take hp)
      rw [List.get?_eq_some] at hv
      obtain ⟨hlt, _⟩ := hv
      unfold IndexFlatL2.ntotal at hle
      omega

theorem C10_witness :
    dbC10.texts.length < dbC10.index.ntotal ∧
      ∃ q k, q.length = dbC10.index.d ∧ dbC10.search q k = .error .indexError :=
  ⟨by decide, (C10_unguarded_text_lookup dbC10).1 (by decide)⟩

/-! ### Helper lemmas about squared distances and nearest results -/

theorem sqL2_nonneg (q v : Vec) : 0 ≤ sqL2 q v := by
  unfold sqL2
  induction q generalizing v with
  | nil => simp
  | cons a q ih =>
    cases v with
    | nil => simp
    | cons b v =>
      rw [List.zipWith_cons_cons, List.sum_cons]
      exact add_nonneg (mul_self_nonneg (a - b)) (ih v)

theorem sqL2_self (q : Vec) : sqL2 q q = 0 := by
  unfold sqL2
  induction q with
  | nil => rfl
  | cons a q ih =>
    rw [List.zipWith_cons_cons, List.sum_cons, sub_self, mul_zero, zero_add]
    exact ih

theorem sqL2_cons (a b : Scalar) (q v : List Scalar) :
    sqL2 (a :: q) (b :: v) = (a - b) * (a - b) + sqL2 q v := by
  unfold sqL2
  rw [List.zipWith_cons_cons, List.sum_cons]

theorem sqL2_eq_zero_iff (q v : Vec) (h : q.length = v.length) :
    sqL2 q v = 0 ↔ q = v := by
  induction q generalizing v with
  | nil =>
    cases v with
    | nil => simp [sqL2]
    | cons b v => simp at h
  | cons a q ih =>
    cases v with
    | nil => simp at h
    | cons b v =>
      rw [sqL2_cons,
        add_eq_zero_iff' (mul_self_nonneg (a - b)) (sqL2_nonneg q v),
        mul_self_eq_zero, sub_eq_zero]
      constructor
      · rintro ⟨rfl, hrest⟩
        rw [(ih v (by simpa using h)).mp hrest]
      · intro he
        injection he with h1 h2
        exact ⟨h1, h2 ▸ sqL2_self q⟩

theorem findIdx_le_of_get? {α : Type} (p : α → Bool) (l : List α) (i : Nat)
    (x : α) (hx : l.get? i = some x) (hpx : p x = true) : l.findIdx p ≤ i := by
  induction l generalizing i with
  | nil => exact absurd hx (by simp)
  | cons a l ih =>
    rw [List.findIdx_cons]
    cases i with
    | zero =>
      injection hx with hx'
      subst hx'
      rw [hpx]
      exact Nat.le_refl 0
    | succ i =>
      cases hpa : p a
      · simp only [cond_false]
        have := ih i (by simpa using hx)
        omega
      · simp only [cond_true]
        omega

/-- C7 counterexample: two records share the same embedding but have
different texts; querying with the embedding of the record at position 1
returns the position-0 record's text first (the tie is broken by lower
insertion position), not "that record's text". -/
theorem C7_counterexample :
    dbC7dup.WellFormed ∧
      dbC7dup.embeddings.get? 1 = some (some [0]) ∧
      dbC7dup.texts.get? 1 = some "b" ∧
      dbC7dup.search [0] 1 = .ok [("a", 0, Metadata.empty)] ∧
      ("a" : String) ≠ "b" := by
  refine ⟨by decide, by decide, by decide, by rfl, by decide⟩

/-- C7 (amended): For every well-formed store holding N > 0 records,
querying with the stored embedding `qv` of any record and any `k > 0`:
`search` succeeds, returning the similarity index's hit list mapped to
(text, distance, metadata) triples — at most `min(k, N)` of them
— where the hit list is sorted by ascending squared Euclidean distance
with ties broken by lower insertion position; and the first returned
triple is the text of the earliest record whose embedding equals the
query, at distance exactly 0 (the queried record itself whenever its
embedding is unique). -/
theorem C7_search_ordering (db : VectorDB) (k j : Nat) (qv : Vec)
    (hwf : db.WellFormed) (hk : 0 < k)
    (hqv : db.index.vecs.get? j = some qv) :
    ∃ hits rs,
      db.index.search qv (min k db.index.ntotal) = .ok hits ∧
      db.search qv k = .ok rs ∧
      rs = hits.map (fun h =>
        (db.texts.getD h.2 "", h.1, (db.metadata.get? h.2).getD Metadata.empty)) ∧
      rs.length ≤ min k db.index.ntotal ∧
      List.Sorted hitLE hits ∧
      rs.head? = some
        (db.texts.getD (db.index.vecs.findIdx (fun u => decide (u = qv))) "", 0,
         (db.metadata.get? (db.index.vecs.findIdx (fun u => decide (u = qv)))).getD
           Metadata.empty) := by
  obtain ⟨hd, hT, hM, hE, hV⟩ := hwf
  have hjlt : j < db.index.vecs.length := by
    rw [List.get?_eq_some] at hqv
    obtain ⟨hj, _⟩ := hqv
    exact hj
  have hqmem : qv ∈ db.index.vecs := List.get?_mem hqv
  have hN : 0 < db.index.ntotal := by
    unfold IndexFlatL2.ntotal
    omega
  have hqlen : qv.length = db.index.d := by
    rw [hd]
    exact hV qv hqmem
  have hsearch := IndexFlatL2.search_eq db.index qv (min k db.index.ntotal) hqlen
  have hslen := length_sorted_scoredList db.index qv
  have hinrange : ∀ p ∈ ((scoredList db.index qv).insertionSort hitLE).take
      (min k db.index.ntotal), p.2 < db.texts.length := by
    intro p hp
    obtain ⟨v, hv, _⟩ := mem_sorted_scoredList db.index qv p (List.mem_of_mem_take hp)
    rw [List.get?_eq_some] at hv
    obtain ⟨hlt, _⟩ := hv
    unfold IndexFlatL2.ntotal at hT
    omega
  have hcall : db.search qv k = .ok ((((scoredList db.index qv).insertionSort
      hitLE).take (min k db.index.ntotal)).map (fun h =>
        (db.texts.getD h.2 "", h.1, (db.metadata.get? h.2).getD Metadata.empty))) := by
    unfold VectorDB.search
    rw [if_neg (by omega), hsearch]
    exact collectResults_ok _ _ _ hinrange
  refine ⟨_, _, hsearch, hcall, rfl, ?_, ?_, ?_⟩
  · rw [List.length_map, List.length_take, hslen]
    exact Nat.min_le_left _ _
  · exact List.Pairwise.take (List.sorted_insertionSort hitLE _)
  · -- the head is (0, earliest position with this embedding)
    have hj0lt : db.index.vecs.findIdx (fun u => decide (u = qv)) <
        db.index.vecs.length :=
      List.findIdx_lt_length.mpr ⟨qv, hqmem, by simp⟩
    have hj0get : db.index.vecs.get? (db.index.vecs.findIdx
        (fun u => decide (u = qv))) = some qv := by
      rw [List.get?_eq_some]
      refine ⟨hj0lt, ?_⟩
      have hp := @List.findIdx_getElem _ (fun u => decide (u = qv))
        db.index.vecs hj0lt
      rw [List.get_eq_getElem]
      exact of_decide_eq_true hp
    have hmem0 : ((0 : Scalar), db.index.vecs.findIdx (fun u => decide (u = qv))) ∈
        (scoredList db.index qv).insertionSort hitLE := by
      have := sorted_scoredList_mem db.index qv _ qv hj0get
      rwa [sqL2_self] at this
    rcases hS : (scoredList db.index qv).insertionSort hitLE with _ | ⟨h, t⟩
    · rw [hS] at hslen
      simp at hslen
      omega
    · have hsorted : List.Sorted hitLE (h :: t) := by
        rw [← hS]
        exact List.sorted_insertionSort hitLE _
      have hhmem : h ∈ (scoredList db.index qv).insertionSort hitLE := by
        rw [hS]
        exact List.mem_cons_self h t
      obtain ⟨vh, hvh, hdh⟩ := mem_sorted_scoredList db.index qv h hhmem
      have hvhmem : vh ∈ db.index.vecs := List.get?_mem hvh
      have hh0 : (0 : Scalar) ≤ h.1 := hdh ▸ sqL2_nonneg qv vh
      have hle : hitLE h (0, db.index.vecs.findIdx (fun u => decide (u = qv))) := by
        rw [hS] at hmem0
        rcases List.mem_cons.mp hmem0 with heq | hmt
        · rw [← heq]
          exact Or.inr ⟨rfl, Nat.le_refl _⟩
        · exact List.rel_of_sorted_cons hsorted _ hmt
      have hh1 : h.1 = 0 ∧ h.2 ≤ db.index.vecs.findIdx (fun u => decide (u = qv)) := by
        rcases hle with hlt | he
        · exact absurd hlt (by simp; exact hh0)
        · exact he
      have hvheq : vh = qv := by
        have h0 : sqL2 qv vh = 0 := by rw [← hdh]; exact hh1.1
        have hlen : qv.length = vh.length := by
          rw [hqlen, hd]
          exact (hV vh hvhmem).symm
        exact ((sqL2_eq_zero_iff qv vh hlen).mp h0).symm
      have hj0le : db.index.vecs.findIdx (fun u => decide (u = qv)) ≤ h.2 :=
        findIdx_le_of_get? _ _ h.2 vh hvh (by rw [hvheq]; simp)
      have hheq : h = (0, db.index.vecs.findIdx (fun u => decide (u = qv))) := by
        have : h.2 = db.index.vecs.findIdx (fun u => decide (u = qv)) := by omega
        rw [← hh1.1, ← this]
      obtain ⟨m, hm⟩ : ∃ m, min k db.index.ntotal = m + 1 := by
        refine ⟨min k db.index.ntotal - 1, ?_⟩
        have h1 : 1 ≤ k := hk
        have h2 : 1 ≤ db.index.ntotal := hN
        have : 1 ≤ min k db.index.ntotal := le_min h1 h2
        omega
      rw [hm, List.take_succ_cons, hheq]
      rfl

theorem C7_witness :
    (dbC7.WellFormed ∧ 0 < 3 ∧ dbC7.index.vecs.get? 1 = some [3, 4]) ∧
      (∃ hits rs,
        dbC7.index.search [3, 4] (min 3 dbC7.index.ntotal) = .ok hits ∧
        dbC7.search [3, 4] 3 = .ok rs ∧
        rs = hits.map (fun h =>
          (dbC7.texts.getD h.2 "", h.1,
           (dbC7.metadata.get? h.2).getD Metadata.empty)) ∧
        rs.length ≤ min 3 dbC7.index.ntotal ∧
        List.Sorted hitLE hits ∧
        rs.head? = some
          (dbC7.texts.getD (dbC7.index.vecs.findIdx (fun u => decide (u = [3, 4]))) "",
           0,
           (dbC7.metadata.get?
             (dbC7.index.vecs.findIdx (fun u => decide (u = [3, 4])))).getD
             Metadata.empty)) :=
  ⟨⟨by decide, by decide, by decide⟩,
   C7_search_ordering dbC7 3 1 [3, 4] (by decide) (by decide) (by decide)⟩

/-- C5 counterexample: `"abcde"` is non-empty and shorter than
`chunk_size = 10`, yet with `overlap = 8` the loop restarts inside the
text twice and `chunk_text` returns three chunks, not one. -/
theorem C5_counterexample :
    (['a', 'b', 'c', 'd', 'e'] : List Char) ≠ [] ∧
      (['a', 'b', 'c', 'd', 'e'] : List Char).length < 10 ∧
      chunk_text ['a', 'b', 'c', 'd', 'e'] 10 8 =
        [['a', 'b', 'c', 'd', 'e'], ['c', 'd', 'e'], ['e']] ∧
      (chunk_text ['a', 'b', 'c', 'd', 'e'] 10 8).length ≠ 1 := by
  refine ⟨by decide, by decide, by decide, by decide⟩

/-- C5 (amended): For every input whose stripped form is non-empty and
shorter than `chunk_size`, and whose `overlap` is small enough that the
restart position `chunk_size - overlap` lands at or beyond the stripped
input's end, `chunk_text` returns exactly one chunk equal to the stripped
input. -/
theorem C5_short_input_single_chunk (text : List Char) (cs ov : Nat)
    (hne : pyStrip text ≠ [])
    (hshort : (pyStrip text).length < cs)
    (hov : ov + (pyStrip text).length ≤ cs) :
    chunk_text text cs ov = [pyStrip text] := by
  have hidem := pyStrip_idem text
  unfold chunk_text
  set t := pyStrip text with ht
  have hlen : 0 < t.length := List.length_pos.mpr hne
  have hE : chunkEnd t cs 0 = cs := by
    unfold chunkEnd
    rw [if_neg (by omega : ¬ 0 + cs < t.length)]
    omega
  have hC : pyStrip ((t.drop 0).take (chunkEnd t cs 0 - 0)) = t := by
    rw [hE, List.drop_zero, Nat.sub_zero,
      List.take_of_length_le (le_of_lt hshort)]
    exact hidem
  have hNext : t.length ≤ chunkStep t cs ov 0 := by
    unfold chunkStep chunkNextStart
    rw [hE]
    split <;> omega
  have hLoop : chunkLoop t cs ov (t.length + 1) 0 = [t] := by
    obtain ⟨n, hn⟩ : ∃ n, t.length = n + 1 := ⟨t.length - 1, by omega⟩
    rw [hn]
    simp only [chunkLoop]
    rw [if_pos (by omega : 0 < t.length), hC,
      if_neg (by simp [hne] : ¬ t.isEmpty = true)]
    rcases hfs : chunkStep t cs ov 0 with _ | m
    · omega
    · rw [if_neg (by omega : ¬ m + 1 < t.length)]
      simp
  rw [if_neg (by simp [hne] : ¬ t.isEmpty = true), hLoop]
  rw [if_neg (by simp : ¬ ([t] : List (List Char)).isEmpty = true)]

theorem C5_witness :
    (pyStrip "  hello  ".toList ≠ [] ∧ (pyStrip "  hello  ".toList).length < 1000 ∧
        200 + (pyStrip "  hello  ".toList).length ≤ 1000) ∧
      chunk_text "  hello  ".toList 1000 200 = [pyStrip "  hello  ".toList] :=
  ⟨⟨by decide, by decide, by decide⟩,
   C5_short_input_single_chunk "  hello  ".toList 1000 200
     (by decide) (by decide) (by decide)⟩

/-- C6 counterexample: with `chunk_size = 1` and `overlap = 1` on
`"abc"` (no sentence endings), the loop's start position stays at 0
forever — the same start is re-emitted and the source loop does not
terminate. -/
theorem C6_counterexample :
    0 < (['a', 'b', 'c'] : List Char).length ∧
      chunkStep ['a', 'b', 'c'] 1 1 0 = 0 := by
  refine ⟨by decide, by decide⟩

/-- C6 (amended): Whenever `overlap + 198 < chunk_size` (the reference
parameters 1000/200 qualify), every iteration of the chunking loop moves
to a strictly larger start position — no start is ever re-emitted — and
consequently the loop terminates: its value is independent of the fuel
once the fuel covers the text. -/
theorem C6_forward_progress (text : List Char) (cs ov start : Nat)
    (hcs : ov + 198 < cs) (_hs : start < text.length) :
    start < chunkStep text cs ov start ∧
      ∀ fuel1 fuel2, text.length ≤ fuel1 → text.length ≤ fuel2 →
        chunkLoop text cs ov fuel1 0 = chunkLoop text cs ov fuel2 0 := by
  refine ⟨chunkStep_progress text cs ov start hcs, ?_⟩
  intro fuel1 fuel2 h1 h2
  exact chunkLoop_fuel_eq text cs ov hcs text.length fuel1 fuel2 0
    (by omega) (by omega) (by omega)

theorem C6_witness :
    (200 + 198 < 1000 ∧ 0 < "ab. cd".toList.length) ∧
      (0 < chunkStep "ab. cd".toList 1000 200 0 ∧
        ∀ fuel1 fuel2, "ab. cd".toList.length ≤ fuel1 →
          "ab. cd".toList.length ≤ fuel2 →
          chunkLoop "ab. cd".toList 1000 200 fuel1 0 =
            chunkLoop "ab. cd".toList 1000 200 fuel2 0) :=
  ⟨⟨by decide, by decide⟩,
   C6_forward_progress "ab. cd".toList 1000 200 0 (by decide) (by decide)⟩

/-- C8: For every query vector and every k, calling `search` on a store
holding zero records returns the empty sequence and never raises an
error. -/
theorem C8_empty_store_search (db : VectorDB) (q : Vec) (k : Nat)
    (h : db.index.ntotal = 0) : db.search q k = .ok [] := by
  unfold VectorDB.search
  rw [if_pos h]

theorem C8_witness :
    ((VectorDB.clear dbC8 emptyDisk).1.index.ntotal = 0) ∧
      (VectorDB.clear dbC8 emptyDisk).1.search [5] 3 = .ok [] :=
  ⟨by decide, C8_empty_store_search (VectorDB.clear dbC8 emptyDisk).1 [5] 3 (by decide)⟩

/-- C9: If reading either snapshot file raises (a corrupt persisted
state), the constructor catches the exception and initializes an empty
store with the configured dimension; `load` is a total function here, so
no exception ever propagates to the caller. -/
theorem C9_corrupt_load_recovery (d : Nat) (disk : Disk)
    (h : (disk.indexFile = some .corrupt ∧ disk.pklFile.isSome) ∨
         (∃ ix, disk.indexFile = some (.good ix) ∧ disk.pklFile = some .corrupt)) :
    VectorDB.init d disk = ⟨d, IndexFlatL2.init d, [], [], []⟩ := by
  rcases h with ⟨h1, h2⟩ | ⟨ix, h1, h2⟩
  · rcases hp : disk.pklFile with _ | f
    · rw [hp] at h2; exact absurd h2 (by simp)
    · unfold VectorDB.init VectorDB.load
      rw [h1, hp]
      rfl
  · unfold VectorDB.init VectorDB.load
    rw [h1, h2]
    rfl

theorem C9_witness :
    ((∃ ix, corruptDisk.indexFile = some (.good ix) ∧
        corruptDisk.pklFile = some .corrupt)) ∧
      VectorDB.init 3 corruptDisk = ⟨3, IndexFlatL2.init 3, [], [], []⟩ :=
  ⟨⟨⟨3, [[1, 2, 3]]⟩, rfl, rfl⟩,
   C9_corrupt_load_recovery 3 corruptDisk (Or.inr ⟨⟨3, [[1, 2, 3]]⟩, rfl, rfl⟩)⟩

/-- C2: For every store whose index carries the configured dimension, a
call to `add_documents` with non-empty inputs in which some embedding's
length differs from that dimension fails with a validation error
(`ValueError` or the dimension assertion), and the store and disk are
left exactly unchanged — no partial insert. -/
theorem C2_dimension_mismatch_rejected (db : VectorDB) (disk : Disk)
    (embs : List Vec) (txts : List String) (md : Option (List Metadata))
    (hd : db.index.d = db.dimension)
    (hne : embs ≠ []) (hnt : txts ≠ [])
    (hbad : ∃ e ∈ embs, e.length ≠ db.dimension) :
    (∃ err, db.add_documents disk embs txts md = .error err) ∧
      applyOp (db, disk) (.add embs txts md) = (db, disk) := by
  have hadd : ∃ err, db.add_documents disk embs txts md = .error err := by
    unfold VectorDB.add_documents
    rw [if_neg (by simp [hne, hnt])]
    by_cases hl : embs.length = txts.length
    · rw [if_neg (by simp [hl])]
      have : db.index.add embs = .error "dimension mismatch" := by
        unfold IndexFlatL2.add
        rw [if_neg]
        obtain ⟨e, he, hlen⟩ := hbad
        simp only [List.all_eq_true, decide_eq_true_eq]
        intro hall
        exact hlen (hd ▸ hall e he)
      rw [this]
      exact ⟨.dimensionMismatch, rfl⟩
    · rw [if_pos (by simpa using hl)]
      exact ⟨.valueError, rfl⟩
  refine ⟨hadd, ?_⟩
  obtain ⟨err, herr⟩ := hadd
  simp only [applyOp, herr]

theorem C2_witness :
    (dbC2.index.d = dbC2.dimension ∧ ([[(1 : ℤ), 2, 3]] : List Vec) ≠ [] ∧
        (["t"] : List String) ≠ [] ∧
        (∃ e ∈ ([[(1 : ℤ), 2, 3]] : List Vec), e.length ≠ dbC2.dimension)) ∧
      (∃ err, dbC2.add_documents emptyDisk [[1, 2, 3]] ["t"] none = .error err) ∧
        applyOp (dbC2, emptyDisk) (.add [[1, 2, 3]] ["t"] none) = (dbC2, emptyDisk) :=
  ⟨⟨by decide, by decide, by decide, ⟨[1, 2, 3], by decide⟩⟩,
   C2_dimension_mismatch_rejected dbC2 emptyDisk [[1, 2, 3]] ["t"] none
     (by decide) (by decide) (by decide) ⟨[1, 2, 3], by decide⟩⟩

/-- C4: Inserting a non-empty batch of records via `add_documents` (which
persists) and then constructing a fresh `VectorDB` on the same path — with
any constructor dimension — yields a store holding identical
(text, metadata, embedding) tuples in the same order and an index of the
same element count as the store the insert produced. -/
theorem C4_save_load_roundtrip (db db1 : VectorDB) (disk disk1 : Disk)
    (embs : List Vec) (txts : List String) (md : Option (List Metadata))
    (hne : embs ≠ []) (hnt : txts ≠ [])
    (h : db.add_documents disk embs txts md = .ok (db1, disk1)) (d0 : Nat) :
    (VectorDB.init d0 disk1).texts = db1.texts ∧
      (VectorDB.init d0 disk1).metadata = db1.metadata ∧
      (VectorDB.init d0 disk1).embeddings = db1.embeddings ∧
      (VectorDB.init d0 disk1).index.ntotal = db1.index.ntotal := by
  unfold VectorDB.add_documents at h
  rw [if_neg (by simp [hne, hnt])] at h
  by_cases hl : embs.length = txts.length
  · rw [if_neg (by simp [hl])] at h
    rcases hadd : db.index.add embs with err | ix
    · rw [hadd] at h; exact absurd h (by simp)
    · rw [hadd] at h
      simp only [Except.ok.injEq, Prod.mk.injEq] at h
      obtain ⟨hdb1, hdisk1⟩ := h
      subst hdb1
      subst hdisk1
      have hembne : (db.embeddings ++ embs.map some).isEmpty = false := by
        rcases embs with _ | ⟨e, es⟩
        · exact absurd rfl hne
        · simp
      unfold VectorDB.init VectorDB.load VectorDB.save
      simp [hembne]
  · rw [if_pos (by simpa using hl)] at h
    exact absurd h (by simp)

theorem C4_witness :
    (([[(2 : ℤ)]] : List Vec) ≠ [] ∧ (["t"] : List String) ≠ [] ∧
        dbC4.add_documents emptyDisk [[2]] ["t"] none = .ok (dbC4out, diskC4out)) ∧
      ((VectorDB.init 42 diskC4out).texts = dbC4out.texts ∧
        (VectorDB.init 42 diskC4out).metadata = dbC4out.metadata ∧
        (VectorDB.init 42 diskC4out).embeddings = dbC4out.embeddings ∧
        (VectorDB.init 42 diskC4out).index.ntotal = dbC4out.index.ntotal) :=
  ⟨⟨by decide, by decide, by rfl⟩,
   C4_save_load_roundtrip dbC4 dbC4out emptyDisk diskC4out [[2]] ["t"] none
     (by decide) (by decide) (by rfl) 42⟩
